import Mathlib

/-!
Verification of the two maintenance scripts of the Ramoti website repository:
`scripts/apply_gallery_tags.py` (the Tag Applier) and
`scripts/rename_photos_by_caption.py` (the Caption Renamer).

Strings are modelled as `List Char`; the filesystem of the photo folder is
modelled as the list of file names it contains.  Every definition is a direct
transcription of the corresponding Python function.
-/

/-! ### Character classes used by the scripts -/

/-- ASCII whitespace, the character class matched by Python's `str.strip()`
(and by `\s` in its regexes) on ASCII text. -/
def isWS (c : Char) : Bool :=
  c == ' ' || c == '\t' || c == '\n' || c == '\r' || c == '\x0b' || c == '\x0c'

/-- The character class `[a-z0-9]` of the sanitizer's first regex. -/
def isAlnum (c : Char) : Bool :=
  ('a' ≤ c && c ≤ 'z') || ('0' ≤ c && c ≤ '9')

/-- Underscore test, the class `_` of the sanitizer's second regex. -/
def isU (c : Char) : Bool := c == '_'

/-- Per-character lowering as done by Python `str.lower()` on ASCII text. -/
def toLowerA (c : Char) : Char :=
  if 'A' ≤ c ∧ c ≤ 'Z' then Char.ofNat (c.toNat + 32) else c

theorem toLowerA_ws {c : Char} (h : isWS c = true) : toLowerA c = c := by
  simp only [isWS, Bool.or_eq_true, beq_iff_eq] at h
  rcases h with (((((h | h) | h) | h) | h) | h) <;> subst h <;> decide

theorem isAlnum_ws {c : Char} (h : isWS c = true) : isAlnum c = false := by
  simp only [isWS, Bool.or_eq_true, beq_iff_eq] at h
  rcases h with (((((h | h) | h) | h) | h) | h) <;> subst h <;> decide

theorem isAlnum_ne_underscore {c : Char} (h : isAlnum c = true) : c ≠ '_' := by
  intro he; subst he; exact absurd h (by decide)

theorem isU_false_of_isAlnum {c : Char} (h : isAlnum c = true) : isU c = false := by
  simp only [isU, beq_eq_false_iff_ne, ne_eq]
  exact isAlnum_ne_underscore h

/-! ### The caption sanitizer (`sanitize_caption`)

Python source:
```
def sanitize_caption(text: str) -> str:
    text = text.strip().lower()
    text = re.sub(r"[^a-z0-9]+", "_", text)
    text = re.sub(r"_+", "_", text).strip("_")
    return text or "image"
```
-/

/-- `re.sub(r"[^a-z0-9]+", "_", ·)`: each maximal run of characters outside
`[a-z0-9]` is replaced by a single underscore.  The flag records whether we
are currently inside such a run (whose underscore has already been output). -/
def collapseGo (inRun : Bool) : List Char → List Char
  | [] => []
  | c :: cs =>
    if isAlnum c then c :: collapseGo false cs
    else if inRun then collapseGo true cs
    else '_' :: collapseGo true cs

/-- `re.sub(r"_+", "_", ·)`: each maximal run of underscores is replaced by a
single underscore. -/
def collapseUGo (inRun : Bool) : List Char → List Char
  | [] => []
  | c :: cs =>
    if isU c then
      (if inRun then collapseUGo true cs else '_' :: collapseUGo true cs)
    else c :: collapseUGo false cs

/-- Drop leading underscores. -/
def dropU (l : List Char) : List Char := l.dropWhile isU

/-- Drop trailing underscores. -/
def rdropU (l : List Char) : List Char := (l.reverse.dropWhile isU).reverse

/-- Python `str.strip("_")`. -/
def stripU (l : List Char) : List Char := dropU (rdropU l)

/-- Drop leading ASCII whitespace. -/
def dropW (l : List Char) : List Char := l.dropWhile isWS

/-- Drop trailing ASCII whitespace. -/
def rdropW (l : List Char) : List Char := (l.reverse.dropWhile isWS).reverse

/-- Python `str.strip()` (on ASCII text). -/
def pyStrip (l : List Char) : List Char := rdropW (dropW l)

/-- The sanitizer's pipeline before the final empty-string fallback:
strip, lower, collapse non-alphanumeric runs, collapse underscore runs,
strip underscores. -/
def sanitizeCore (s : List Char) : List Char :=
  stripU (collapseUGo false (collapseGo false ((pyStrip s).map toLowerA)))

/-- `sanitize_caption` from `rename_photos_by_caption.py`, transcribed
step by step (`return text or "image"` is the fallback). -/
def sanitize_caption (s : List Char) : List Char :=
  if sanitizeCore s = [] then "image".toList else sanitizeCore s

/-- The sanitizer's core as the spec describes it: lowercase, collapse every
run of non-lowercase-alphanumeric characters to a single underscore, trim
leading and trailing underscores. -/
def sanitizeSpecCore (s : List Char) : List Char :=
  stripU (collapseGo false (s.map toLowerA))

/-- The sanitizer as the spec describes it, with the `"image"` fallback for
an empty result. -/
def sanitizeSpec (s : List Char) : List Char :=
  if sanitizeSpecCore s = [] then "image".toList else sanitizeSpecCore s

/-! #### The second regex substitution is the identity on the first one's
output -/

theorem collapseUGo_collapseGo (l : List Char) :
    (∀ b, collapseUGo false (collapseGo b l) = collapseGo b l) ∧
      collapseUGo true (collapseGo true l) = collapseGo true l := by
  induction l with
  | nil => exact ⟨fun _ => rfl, rfl⟩
  | cons c cs ih =>
    cases hc : isAlnum c with
    | true =>
      have hu : isU c = false := isU_false_of_isAlnum hc
      constructor
      · intro b
        simp [collapseGo, hc, collapseUGo, hu, ih.1 false]
      · simp [collapseGo, hc, collapseUGo, hu, ih.1 false]
    | false =>
      constructor
      · intro b
        cases b with
        | true => simp [collapseGo, hc, ih.1 true]
        | false =>
          simp [collapseGo, hc, collapseUGo, isU, ih.2]
      · simp [collapseGo, hc, ih.2]

/-! #### Facts about `rdropU` and `stripU` -/

theorem rdropU_cons (c : Char) (l : List Char) :
    rdropU (c :: l) =
      if rdropU l = [] then (if isU c then [] else [c]) else c :: rdropU l := by
  unfold rdropU
  rw [List.reverse_cons, List.dropWhile_append]
  cases h : l.reverse.dropWhile isU with
  | nil =>
    simp only [List.isEmpty_nil, if_true, List.reverse_nil, List.reverse_eq_nil_iff]
    cases hc : isU c <;> simp [List.dropWhile, hc]
  | cons d ds =>
    simp [List.reverse_eq_nil_iff, h]

theorem rdropU_congr_cons {l₁ l₂ : List Char} (c : Char)
    (h : rdropU l₁ = rdropU l₂) : rdropU (c :: l₁) = rdropU (c :: l₂) := by
  rw [rdropU_cons, rdropU_cons, h]

theorem stripU_underscore_cons (l : List Char) : stripU ('_' :: l) = stripU l := by
  unfold stripU
  rw [rdropU_cons]
  by_cases h : rdropU l = []
  · rw [if_pos h, h]
    rfl
  · rw [if_neg h]
    show dropU ('_' :: rdropU l) = dropU (rdropU l)
    unfold dropU
    rw [List.dropWhile_cons]
    rfl

/-- On a list with no alphanumeric character, the collapse produces at most a
single underscore, which `rdropU` then erases. -/
theorem collapseGo_all_junk {l : List Char} (h : ∀ c ∈ l, isAlnum c = false) :
    collapseGo true l = [] ∧ (collapseGo false l = [] ∨ collapseGo false l = ['_']) := by
  induction l with
  | nil => exact ⟨rfl, Or.inl rfl⟩
  | cons c cs ih =>
    have hc : isAlnum c = false := h c (List.mem_cons_self c cs)
    have ih' := ih (fun d hd => h d (List.mem_cons_of_mem c hd))
    constructor
    · simpa [collapseGo, hc] using ih'.1
    · refine Or.inr ?_
      simp [collapseGo, hc, ih'.1]

theorem rdropU_collapseGo_junk {l : List Char} (h : ∀ c ∈ l, isAlnum c = false)
    (b : Bool) : rdropU (collapseGo b l) = [] := by
  cases b with
  | true => rw [(collapseGo_all_junk h).1]; rfl
  | false => rcases (collapseGo_all_junk h).2 with h1 | h1 <;> rw [h1] <;> rfl

/-- Appending non-alphanumeric junk at the end does not change the collapsed
list once trailing underscores are removed. -/
theorem rdropU_collapseGo_append_junk (xs : List Char) {junk : List Char}
    (hj : ∀ c ∈ junk, isAlnum c = false) :
    ∀ b, rdropU (collapseGo b (xs ++ junk)) = rdropU (collapseGo b xs) := by
  induction xs with
  | nil =>
    intro b
    rw [List.nil_append]
    rw [rdropU_collapseGo_junk hj b]
    rfl
  | cons c cs ih =>
    intro b
    cases hc : isAlnum c with
    | true =>
      simp only [List.cons_append, collapseGo, hc, if_true]
      exact rdropU_congr_cons c (ih false)
    | false =>
      cases b with
      | true => simpa [collapseGo, hc] using ih true
      | false =>
        have e1 : collapseGo false ((c :: cs) ++ junk) = '_' :: collapseGo true (cs ++ junk) := by
          simp [collapseGo, hc]
        have e2 : collapseGo false (c :: cs) = '_' :: collapseGo true cs := by
          simp [collapseGo, hc]
        rw [e1, e2]
        exact rdropU_congr_cons '_' (ih true)

theorem stripU_collapseGo_true_false (l : List Char) :
    stripU (collapseGo true l) = stripU (collapseGo false l) := by
  cases l with
  | nil => rfl
  | cons c cs =>
    cases hc : isAlnum c with
    | true => simp [collapseGo, hc]
    | false =>
      have e1 : collapseGo true (c :: cs) = collapseGo true cs := by
        simp [collapseGo, hc]
      have e2 : collapseGo false (c :: cs) = '_' :: collapseGo true cs := by
        simp [collapseGo, hc]
      rw [e1, e2, stripU_underscore_cons]

/-- Dropping leading whitespace before lowering does not change the final
sanitized core. -/
theorem stripU_collapseGo_dropW (s : List Char) :
    stripU (collapseGo false ((dropW s).map toLowerA)) =
      stripU (collapseGo false (s.map toLowerA)) := by
  induction s with
  | nil => rfl
  | cons c cs ih =>
    cases hw : isWS c with
    | false => simp [dropW, List.dropWhile, hw]
    | true =>
      have h1 : toLowerA c = c := toLowerA_ws hw
      have h2 : isAlnum c = false := isAlnum_ws hw
      have hd : dropW (c :: cs) = dropW cs := by
        simp [dropW, List.dropWhile, hw]
      rw [hd, ih]
      have e1 : (c :: cs).map toLowerA = c :: cs.map toLowerA := by
        rw [List.map_cons, h1]
      have e2 : collapseGo false (c :: cs.map toLowerA) =
          '_' :: collapseGo true (cs.map toLowerA) := by
        simp [collapseGo, h2]
      rw [e1, e2, stripU_underscore_cons, stripU_collapseGo_true_false]

theorem mem_takeWhile_ws {c : Char} {l : List Char}
    (h : c ∈ l.takeWhile isWS) : isWS c = true := by
  induction l with
  | nil => simp [List.takeWhile] at h
  | cons d ds ih =>
    rw [List.takeWhile] at h
    cases hd : isWS d with
    | false => simp [hd] at h
    | true =>
      rw [hd] at h
      rcases List.mem_cons.mp h with h1 | h1
      · subst h1; exact hd
      · exact ih h1

/-- Every list is its whitespace-right-trim followed by whitespace junk. -/
theorem rdropW_decomp (l : List Char) :
    ∃ junk, l = rdropW l ++ junk ∧ ∀ c ∈ junk, isWS c = true := by
  refine ⟨(l.reverse.takeWhile isWS).reverse, ?_, ?_⟩
  · conv_lhs => rw [← l.reverse_reverse, ← List.takeWhile_append_dropWhile (p := isWS) (l := l.reverse)]
    rw [List.reverse_append]
    rfl
  · intro c hc
    rw [List.mem_reverse] at hc
    exact mem_takeWhile_ws hc

theorem sanitizeCore_eq_specCore (s : List Char) :
    sanitizeCore s = sanitizeSpecCore s := by
  unfold sanitizeCore sanitizeSpecCore
  rw [(collapseUGo_collapseGo ((pyStrip s).map toLowerA)).1 false]
  obtain ⟨junk, hdec, hjw⟩ := rdropW_decomp (dropW s)
  have hjunk : ∀ c ∈ junk.map toLowerA, isAlnum c = false := by
    intro c hc
    rcases List.mem_map.mp hc with ⟨d, hd, hdc⟩
    have := toLowerA_ws (hjw d hd)
    rw [← hdc, this]
    exact isAlnum_ws (hjw d hd)
  have htrail : stripU (collapseGo false ((pyStrip s).map toLowerA)) =
      stripU (collapseGo false ((dropW s).map toLowerA)) := by
    unfold stripU
    have hsplit : (dropW s).map toLowerA = (pyStrip s).map toLowerA ++ junk.map toLowerA := by
      unfold pyStrip
      rw [← List.map_append, ← hdec]
    rw [hsplit, rdropU_collapseGo_append_junk _ hjunk false]
  rw [htrail, stripU_collapseGo_dropW]

/-- The full equivalence: the implemented sanitizer agrees with the spec's
description of it on every input string. -/
theorem sanitize_caption_eq_spec (s : List Char) :
    sanitize_caption s = sanitizeSpec s := by
  unfold sanitize_caption sanitizeSpec
  rw [sanitizeCore_eq_specCore]

/-! ### Unique destination paths (`unique_path`)

Python source:
```
def unique_path(directory: str, base: str, ext: str) -> str:
    candidate = os.path.join(directory, f"{base}{ext}")
    if not os.path.exists(candidate):
        return candidate
    i = 2
    while True:
        candidate = os.path.join(directory, f"{base}_{i:02d}{ext}")
        if not os.path.exists(candidate):
            return candidate
        i += 1
```
The directory is modelled by the list `ex` of names it contains, and names
stay relative to it (all candidates share the one directory prefix, so
`os.path.join` and `os.path.exists` become list membership).  The unbounded
`while True` loop is run with `ex.length + 1` probes of fuel, which the
totality theorem below proves sufficient. -/

/-- Character of a single decimal digit. -/
def digCh (d : Nat) : Char :=
  match d with
  | 0 => '0' | 1 => '1' | 2 => '2' | 3 => '3' | 4 => '4'
  | 5 => '5' | 6 => '6' | 7 => '7' | 8 => '8' | 9 => '9'
  | _ => '*'

/-- Numeric value of a decimal digit character. -/
def digVal (c : Char) : Nat :=
  match c with
  | '0' => 0 | '1' => 1 | '2' => 2 | '3' => 3 | '4' => 4
  | '5' => 5 | '6' => 6 | '7' => 7 | '8' => 8 | '9' => 9
  | _ => 0

/-- Little-endian decimal digits of `n` (with explicit fuel; `fuel ≥ n`
suffices). -/
def natDigits : Nat → Nat → List Char
  | 0, _ => []
  | fuel + 1, n => if n = 0 then [] else digCh (n % 10) :: natDigits fuel (n / 10)

/-- Decimal representation of a natural number, as Python renders integers. -/
def natReprL (n : Nat) : List Char :=
  if n = 0 then ['0'] else (natDigits n n).reverse

/-- Value of a little-endian digit string. -/
def unDigits : List Char → Nat
  | [] => 0
  | c :: cs => digVal c + 10 * unDigits cs

theorem natDigits_zero (fuel : Nat) : natDigits fuel 0 = [] := by
  cases fuel <;> rfl

theorem digVal_digCh {d : Nat} (h : d < 10) : digVal (digCh d) = d := by
  interval_cases d <;> rfl

theorem unDigits_natDigits : ∀ fuel n, n ≤ fuel → unDigits (natDigits fuel n) = n := by
  intro fuel
  induction fuel with
  | zero => intro n hn; interval_cases n; rfl
  | succ f ih =>
    intro n hn
    by_cases h0 : n = 0
    · subst h0; rw [natDigits_zero]; rfl
    · have hdiv : n / 10 ≤ f := by
        have : n / 10 < n := Nat.div_lt_self (Nat.pos_of_ne_zero h0) (by omega)
        omega
      show unDigits (natDigits (f + 1) n) = n
      unfold natDigits
      rw [if_neg h0]
      show digVal (digCh (n % 10)) + 10 * unDigits (natDigits f (n / 10)) = n
      rw [digVal_digCh (Nat.mod_lt n (by omega)), ih _ hdiv]
      omega

theorem natDigits_last_ne_zero :
    ∀ fuel n, 0 < n → n ≤ fuel →
      ∃ l d, natDigits fuel n = l ++ [d] ∧ d ≠ '0' := by
  intro fuel
  induction fuel with
  | zero => intro n h1 h2; omega
  | succ f ih =>
    intro n h1 h2
    have h0 : n ≠ 0 := by omega
    by_cases hq : n / 10 = 0
    · refine ⟨[], digCh (n % 10), ?_, ?_⟩
      · show natDigits (f + 1) n = [] ++ [digCh (n % 10)]
        unfold natDigits
        rw [if_neg h0, hq, natDigits_zero]
        rfl
      · have hlt : n < 10 := by omega
        have hmod : n % 10 = n := Nat.mod_eq_of_lt hlt
        rw [hmod]
        have : ∀ m, m < 10 → 0 < m → digCh m ≠ '0' := by decide
        exact this n hlt h1
    · have hq1 : 0 < n / 10 := Nat.pos_of_ne_zero hq
      have hdiv : n / 10 ≤ f := by
        have : n / 10 < n := Nat.div_lt_self h1 (by omega)
        omega
      obtain ⟨l, d, hl, hd⟩ := ih (n / 10) hq1 hdiv
      refine ⟨digCh (n % 10) :: l, d, ?_, hd⟩
      show natDigits (f + 1) n = (digCh (n % 10) :: l) ++ [d]
      unfold natDigits
      rw [if_neg h0, hl]
      rfl

theorem natReprL_inj {m n : Nat} (h : natReprL m = natReprL n) : m = n := by
  by_cases hm : m = 0 <;> by_cases hn : n = 0
  · omega
  · exfalso
    unfold natReprL at h
    rw [if_pos hm, if_neg hn] at h
    obtain ⟨l, d, hl, hd⟩ := natDigits_last_ne_zero n n (Nat.pos_of_ne_zero hn) le_rfl
    rw [hl, List.reverse_append] at h
    simp at h
    exact hd h.1.symm
  · exfalso
    unfold natReprL at h
    rw [if_neg hm, if_pos hn] at h
    obtain ⟨l, d, hl, hd⟩ := natDigits_last_ne_zero m m (Nat.pos_of_ne_zero hm) le_rfl
    rw [hl, List.reverse_append] at h
    simp at h
    exact hd h.1
  · unfold natReprL at h
    rw [if_neg hm, if_neg hn] at h
    have := List.reverse_injective h
    have h1 := unDigits_natDigits m m le_rfl
    have h2 := unDigits_natDigits n n le_rfl
    rw [← h1, ← h2, this]

/-- Python's `f"{i:02d}"`: decimal, zero-padded on the left to width 2. -/
def pad2 (i : Nat) : List Char :=
  if i < 10 then ['0', digCh i] else natReprL i

theorem pad2_inj {i j : Nat} (h : pad2 i = pad2 j) : i = j := by
  unfold pad2 at h
  by_cases hi : i < 10 <;> by_cases hj : j < 10
  · rw [if_pos hi, if_pos hj] at h
    have hd : digCh i = digCh j := by
      injection h with h1 h2
      injection h2 with h3 _
    have : ∀ a, a < 10 → ∀ b, b < 10 → digCh a = digCh b → a = b := by decide
    exact this i hi j hj hd
  · exfalso
    rw [if_pos hi, if_neg hj] at h
    have hj0 : 0 < j := by omega
    obtain ⟨l, d, hl, hd⟩ := natDigits_last_ne_zero j j hj0 le_rfl
    unfold natReprL at h
    rw [if_neg (by omega : j ≠ 0), hl, List.reverse_append] at h
    simp at h
    exact hd h.1.symm
  · exfalso
    rw [if_neg hi, if_pos hj] at h
    have hi0 : 0 < i := by omega
    obtain ⟨l, d, hl, hd⟩ := natDigits_last_ne_zero i i hi0 le_rfl
    unfold natReprL at h
    rw [if_neg (by omega : i ≠ 0), hl, List.reverse_append] at h
    simp at h
    exact hd h.1
  · rw [if_neg hi, if_neg hj] at h
    exact natReprL_inj h

/-- The probe candidate `f"{base}_{i:02d}{ext}"`. -/
def candName (base ext : List Char) (i : Nat) : List Char :=
  base ++ '_' :: (pad2 i ++ ext)

theorem candName_inj {base ext : List Char} {i j : Nat}
    (h : candName base ext i = candName base ext j) : i = j := by
  unfold candName at h
  have h1 := List.append_cancel_left h
  injection h1 with _ h2
  exact pad2_inj (List.append_cancel_right h2)

/-- The `while True` probe loop of `unique_path`, with explicit fuel. -/
def uniqueGo (ex : List (List Char)) (base ext : List Char) : Nat → Nat → Option (List Char)
  | 0, _ => none
  | fuel + 1, i =>
    if candName base ext i ∈ ex then uniqueGo ex base ext fuel (i + 1)
    else some (candName base ext i)

/-- `unique_path` over the modelled directory contents `ex`. -/
def unique_path (ex : List (List Char)) (base ext : List Char) : Option (List Char) :=
  if base ++ ext ∈ ex then uniqueGo ex base ext (ex.length + 1) 2
  else some (base ++ ext)

theorem uniqueGo_some_not_mem {ex : List (List Char)} {base ext : List Char} :
    ∀ fuel i r, uniqueGo ex base ext fuel i = some r → r ∉ ex := by
  intro fuel
  induction fuel with
  | zero => intro i r h; exact absurd h (by simp [uniqueGo])
  | succ f ih =>
    intro i r h
    unfold uniqueGo at h
    by_cases hc : candName base ext i ∈ ex
    · rw [if_pos hc] at h
      exact ih (i + 1) r h
    · rw [if_neg hc] at h
      injection h with h1
      rw [← h1]
      exact hc

theorem uniqueGo_none_mem {ex : List (List Char)} {base ext : List Char} :
    ∀ fuel i, uniqueGo ex base ext fuel i = none →
      ∀ k, k < fuel → candName base ext (i + k) ∈ ex := by
  intro fuel
  induction fuel with
  | zero => intro i _ k hk; omega
  | succ f ih =>
    intro i h k hk
    unfold uniqueGo at h
    by_cases hc : candName base ext i ∈ ex
    · rw [if_pos hc] at h
      cases k with
      | zero => simpa using hc
      | succ k' =>
        have := ih (i + 1) h k' (by omega)
        have harith : i + 1 + k' = i + (k' + 1) := by omega
        rwa [harith] at this
    · rw [if_neg hc] at h
      exact absurd h (by simp)

theorem uniqueGo_some_least {ex : List (List Char)} {base ext : List Char} :
    ∀ fuel i r, uniqueGo ex base ext fuel i = some r →
      ∃ m, i ≤ m ∧ r = candName base ext m ∧ candName base ext m ∉ ex ∧
        ∀ j, i ≤ j → j < m → candName base ext j ∈ ex := by
  intro fuel
  induction fuel with
  | zero => intro i r h; exact absurd h (by simp [uniqueGo])
  | succ f ih =>
    intro i r h
    unfold uniqueGo at h
    by_cases hc : candName base ext i ∈ ex
    · rw [if_pos hc] at h
      obtain ⟨m, h1, h2, h3, h4⟩ := ih (i + 1) r h
      refine ⟨m, by omega, h2, h3, ?_⟩
      intro j hj1 hj2
      by_cases hji : j = i
      · rw [hji]; exact hc
      · exact h4 j (by omega) hj2
    · rw [if_neg hc] at h
      injection h with h1
      exact ⟨i, le_rfl, h1.symm, hc, fun j hj1 hj2 => absurd hj1 (by omega)⟩

/-- The probe sequence visits pairwise-distinct names, so `ex.length + 1`
probes always find one that is not in `ex`: the `while True` loop of
`unique_path` terminates on every (finite) directory. -/
theorem uniqueGo_total (ex : List (List Char)) (base ext : List Char) (i : Nat) :
    uniqueGo ex base ext (ex.length + 1) i ≠ none := by
  intro h
  have hmem := uniqueGo_none_mem (ex.length + 1) i h
  set L := (List.range (ex.length + 1)).map (fun k => candName base ext (i + k)) with hL
  have hnd : L.Nodup := by
    refine List.Nodup.map ?_ (List.nodup_range _)
    intro a b hab
    have := candName_inj hab
    omega
  have hsub : L ⊆ ex := by
    intro x hx
    rw [hL] at hx
    rcases List.mem_map.mp hx with ⟨k, hk, hxk⟩
    rw [← hxk]
    exact hmem k (List.mem_range.mp hk)
  have hlen : L.length = ex.length + 1 := by
    rw [hL, List.length_map, List.length_range]
  have hcard1 : L.toFinset.card = ex.length + 1 := by
    rw [List.toFinset_card_of_nodup hnd, hlen]
  have hcard2 : L.toFinset ⊆ ex.toFinset := by
    intro x hx
    exact List.mem_toFinset.mpr (hsub (List.mem_toFinset.mp hx))
  have := Finset.card_le_card hcard2
  have hle := List.toFinset_card_le ex
  omega

/-- `unique_path` never returns a name that is already present. -/
theorem unique_path_not_mem {ex : List (List Char)} {base ext r : List Char}
    (h : unique_path ex base ext = some r) : r ∉ ex := by
  unfold unique_path at h
  by_cases hc : base ++ ext ∈ ex
  · rw [if_pos hc] at h
    exact uniqueGo_some_not_mem _ _ _ h
  · rw [if_neg hc] at h
    injection h with h1
    rw [← h1]
    exact hc

/-- `unique_path` always returns a name. -/
theorem unique_path_isSome (ex : List (List Char)) (base ext : List Char) :
    (unique_path ex base ext).isSome = true := by
  unfold unique_path
  by_cases hc : base ++ ext ∈ ex
  · rw [if_pos hc]
    cases h : uniqueGo ex base ext (ex.length + 1) 2 with
    | none => exact absurd h (uniqueGo_total ex base ext 2)
    | some r => rfl
  · rw [if_neg hc]
    rfl

/-- C5: For every input string, caption sanitization lowercases it, collapses
every run of non-lowercase-alphanumeric characters to a single underscore,
trims leading and trailing underscores, and replaces an empty result with the
fixed fallback base name `"image"`; in particular
`sanitize("  A Walk On The Beach!! ") = "a_walk_on_the_beach"`. -/
theorem C5_sanitize_caption_matches_spec :
    (∀ s : List Char, sanitize_caption s = sanitizeSpec s) ∧
      sanitize_caption "  A Walk On The Beach!! ".toList = "a_walk_on_the_beach".toList :=
  ⟨sanitize_caption_eq_spec, by decide⟩

/-- C6: unique-path computation returns `base.ext` when that name is free,
and otherwise probes `base_02.ext`, `base_03.ext`, … returning the first
unused candidate (having probed all smaller indices); in particular with
existing `photo.jpg` and `photo_02.jpg` the result is `photo_03.jpg`. -/
theorem C6_unique_path_probes :
    (∀ (ex : List (List Char)) (base ext : List Char),
      (base ++ ext ∉ ex → unique_path ex base ext = some (base ++ ext)) ∧
      (base ++ ext ∈ ex → ∃ m, 2 ≤ m ∧
        unique_path ex base ext = some (candName base ext m) ∧
        candName base ext m ∉ ex ∧
        ∀ j, 2 ≤ j → j < m → candName base ext j ∈ ex)) ∧
    unique_path ["photo.jpg".toList, "photo_02.jpg".toList] "photo".toList ".jpg".toList =
      some "photo_03.jpg".toList := by
  constructor
  · intro ex base ext
    constructor
    · intro h
      unfold unique_path
      rw [if_neg h]
    · intro h
      unfold unique_path
      rw [if_pos h]
      cases hgo : uniqueGo ex base ext (ex.length + 1) 2 with
      | none => exact absurd hgo (uniqueGo_total ex base ext 2)
      | some r =>
        obtain ⟨m, h1, h2, h3, h4⟩ := uniqueGo_some_least _ _ _ hgo
        exact ⟨m, h1, by rw [h2], h3, h4⟩
  · decide

/-- Witness for C6: on a directory without `photo.jpg`, the first candidate
is returned as is. -/
theorem C6_unique_path_probes_witness :
    unique_path ["a.jpg".toList] "photo".toList ".jpg".toList = some "photo.jpg".toList := by
  have h := (C6_unique_path_probes.1 ["a.jpg".toList] "photo".toList ".jpg".toList).1 (by decide)
  exact h.trans (by decide)

/-! ### Title derivation (`title_from_name`)

Python source:
```
def title_from_name(name: str) -> str:
    base = name.rsplit('.', 1)[0]
    words = base.replace('_', ' ').split()
    return ' '.join(w.capitalize() for w in words)
```
-/

/-- Python `name.rsplit('.', 1)[0]`: everything before the last dot, or the
whole string when there is none. -/
def rsplitDotHead (name : List Char) : List Char :=
  if '.' ∈ name then ((name.reverse.dropWhile (fun c => !(c == '.'))).tail).reverse
  else name

/-- Python `str.replace('_', ' ')` for the single-character arguments used
here. -/
def replaceUnderscores (l : List Char) : List Char :=
  l.map (fun c => if c = '_' then ' ' else c)

/-- Python `str.split()` with no argument: split on whitespace runs, dropping
empty words.  The accumulator holds the current word reversed. -/
def pySplitGo : List Char → List Char → List (List Char)
  | [], acc => if acc = [] then [] else [acc.reverse]
  | c :: cs, acc =>
    if isWS c then (if acc = [] then pySplitGo cs [] else acc.reverse :: pySplitGo cs [])
    else pySplitGo cs (c :: acc)

/-- Python `str.split()`. -/
def pySplit (l : List Char) : List (List Char) := pySplitGo l []

/-- Per-character uppercasing as done by Python `str.upper()` on ASCII text. -/
def toUpperA (c : Char) : Char :=
  if 'a' ≤ c ∧ c ≤ 'z' then Char.ofNat (c.toNat - 32) else c

/-- Python `str.capitalize()`: first character uppercased, the rest
lowercased. -/
def pyCapitalize : List Char → List Char
  | [] => []
  | c :: cs => toUpperA c :: cs.map toLowerA

/-- `' '.join(...)`. -/
def joinSpaces (ws : List (List Char)) : List Char := List.intercalate [' '] ws

/-- `title_from_name` from `apply_gallery_tags.py`. -/
def title_from_name (name : List Char) : List Char :=
  joinSpaces ((pySplit (replaceUnderscores (rsplitDotHead name))).map pyCapitalize)

/-- The spec's "strip the file extension", written as a direct recursion:
cut at the last dot, keep everything when there is no dot. -/
def stripExtSpec : List Char → List Char
  | [] => []
  | c :: cs => if c = '.' ∧ '.' ∉ cs then [] else c :: stripExtSpec cs

/-- Title derivation as the spec describes it: strip the file extension,
replace underscores with spaces, capitalize each word. -/
def titleSpec (name : List Char) : List Char :=
  joinSpaces ((pySplit (replaceUnderscores (stripExtSpec name))).map pyCapitalize)

theorem stripExtSpec_no_dot {l : List Char} (h : '.' ∉ l) : stripExtSpec l = l := by
  induction l with
  | nil => rfl
  | cons c cs ih =>
    have hc : ¬(c = '.' ∧ '.' ∉ cs) := by
      rintro ⟨h1, _⟩
      exact h (h1 ▸ List.mem_cons_self c cs)
    unfold stripExtSpec
    rw [if_neg hc, ih (fun hm => h (List.mem_cons_of_mem c hm))]

theorem rsplitDotHead_eq_stripExtSpec (name : List Char) :
    rsplitDotHead name = stripExtSpec name := by
  induction name with
  | nil => rfl
  | cons c cs ih =>
    by_cases hdot : '.' ∈ (c :: cs)
    · by_cases hcs : '.' ∈ cs
      · have hx : cs.reverse.dropWhile (fun d => !(d == '.')) ≠ [] := by
          intro hnil
          have hall := List.dropWhile_eq_nil_iff.mp hnil '.' (List.mem_reverse.mpr hcs)
          simp at hall
        unfold rsplitDotHead
        rw [if_pos hdot, List.reverse_cons, List.dropWhile_append]
        have hne : (cs.reverse.dropWhile (fun d => !(d == '.'))).isEmpty = false := by
          cases hX : cs.reverse.dropWhile (fun d => !(d == '.')) with
          | nil => exact absurd hX hx
          | cons d ds => rfl
        rw [if_neg (by rw [hne]; exact Bool.false_ne_true)]
        cases hX : cs.reverse.dropWhile (fun d => !(d == '.')) with
        | nil => exact absurd hX hx
        | cons d ds =>
          have hrs : rsplitDotHead cs = ds.reverse := by
            unfold rsplitDotHead
            rw [if_pos hcs, hX]
            rfl
          have hcond : ¬(c = '.' ∧ '.' ∉ cs) := by
            rintro ⟨_, h2⟩
            exact h2 hcs
          unfold stripExtSpec
          rw [if_neg hcond, ← ih, hrs]
          simp
      · have hc : c = '.' := by
          rcases List.mem_cons.mp hdot with h1 | h1
          · exact h1.symm
          · exact absurd h1 hcs
        subst hc
        have hall : cs.reverse.dropWhile (fun d => !(d == '.')) = [] := by
          rw [List.dropWhile_eq_nil_iff]
          intro a ha
          have hane : a ≠ '.' := fun he => hcs (List.mem_reverse.mp (he ▸ ha))
          simpa using hane
        unfold rsplitDotHead
        rw [if_pos hdot, List.reverse_cons, List.dropWhile_append, hall]
        unfold stripExtSpec
        rw [if_pos (show ('.' : Char) = '.' ∧ '.' ∉ cs from ⟨rfl, hcs⟩)]
        rfl
    · have hcs : '.' ∉ cs := fun hm => hdot (List.mem_cons_of_mem c hm)
      unfold rsplitDotHead
      rw [if_neg hdot, stripExtSpec_no_dot hdot]

/-- C7: Title derivation is a deterministic pure function of the filename:
strip the file extension, replace underscores with spaces, and capitalize
each word; in particular `title_from_name("sunset_beach.jpg") = "Sunset
Beach"`. -/
theorem C7_title_from_name_matches_spec :
    (∀ name : List Char, title_from_name name = titleSpec name) ∧
      title_from_name "sunset_beach.jpg".toList = "Sunset Beach".toList :=
  ⟨fun name => by
      unfold title_from_name titleSpec
      rw [rsplitDotHead_eq_stripExtSpec],
    by decide⟩

/-! ### The Tag Applier's splice (`apply_gallery_tags.py`)

The script compiles the pattern
`(<div class="max-w-7xl mx-auto masonry-grid" id="masonryGrid">)([\s\S]*?)(\n\s*</div>\n\s*</main>)`
and calls `pattern.search(html)`, i.e. it takes the leftmost match, with the
lazy middle group making the closing group start as early as possible.
Group 1 is a literal; group 3 is deterministic because each `\s*` must stop
exactly at the next non-whitespace character (`<` of `</div>`/`</main>`), so
backtracking inside group 3 can never produce an alternative match.
-/

/-- Group 1 of the pattern: the opening container marker (a literal). -/
def openTag : List Char :=
  "<div class=\"max-w-7xl mx-auto masonry-grid\" id=\"masonryGrid\">".toList

/-- Match group 3, `\n\s*</div>\n\s*</main>`, against a prefix of `s`;
returns the matched length. -/
def closeMatchLen (s : List Char) : Option Nat :=
  match s with
  | '\n' :: rest =>
    let a := rest.dropWhile isWS
    if "</div>".toList.isPrefixOf a then
      match a.drop 6 with
      | '\n' :: r2 =>
        let b := r2.dropWhile isWS
        if "</main>".toList.isPrefixOf b then
          some (1 + (rest.takeWhile isWS).length + 6 + 1 + (r2.takeWhile isWS).length + 7)
        else none
      | _ => none
    else none
  | _ => none

/-- Earliest offset at which group 3 matches, with the matched length. -/
def findClose : List Char → Option (Nat × Nat)
  | [] => none
  | c :: cs =>
    match closeMatchLen (c :: cs) with
    | some len => some (0, len)
    | none => (findClose cs).map (fun p => (p.1 + 1, p.2))

/-- `pattern.search(html)`: the leftmost position carrying the opening
literal that is followed (anywhere later) by a group-3 match, together with
the absolute start and end of that earliest group-3 match.  Returns
`(match.start(), start of group 3, match.end())`. -/
def findRegion : List Char → Option (Nat × Nat × Nat)
  | [] => none
  | c :: cs =>
    if openTag.isPrefixOf (c :: cs) then
      match findClose ((c :: cs).drop openTag.length) with
      | some (j, len) => some (0, openTag.length + j, openTag.length + j + len)
      | none => (findRegion cs).map (fun t => (t.1 + 1, t.2.1 + 1, t.2.2 + 1))
    else (findRegion cs).map (fun t => (t.1 + 1, t.2.1 + 1, t.2.2 + 1))

/-- The replacement step of the script:
`html[:m.start()] + m.group(1) + "\n" + cards_html + m.group(3) + html[m.end():]`,
or `None` when the pattern is not found (the script raises `SystemExit`). -/
def splice (doc cards : List Char) : Option (List Char) :=
  match findRegion doc with
  | none => none
  | some (s, cstart, cend) =>
    some (doc.take s ++ openTag ++ '\n' :: (cards ++
      ((doc.drop cstart).take (cend - cstart) ++ doc.drop cend)))

/-- The per-row card fragment (the f-string of the script, with `{tag}`,
`{filename}` and `{title}` spliced in). -/
def cardTemplate (filename tag title : List Char) : List Char :=
  "\n            <div class=\"gallery-card group\" data-category=\"".toList ++ tag ++
  "\">\n                <div class=\"relative overflow-hidden rounded-3xl\">\n                    <img src=\"photos/".toList ++ filename ++
  "\" class=\"w-full object-cover\" alt=\"".toList ++ title ++
  "\" onclick=\"openLightbox(this.src)\" loading=\"lazy\">\n                </div>\n            </div>".toList

/-- `cards_html = "\n".join(cards) + "\n"`. -/
def cardsHtml (rows : List (List Char × List Char)) : List Char :=
  (List.intercalate "\n".toList
    (rows.map (fun r => cardTemplate r.1 r.2 (title_from_name r.1)))) ++ "\n".toList

/-- Errors the Tag Applier raises via `SystemExit` before writing. -/
inductive TagError where
  | noRows : TagError
  | missingTags : List (List Char) → TagError
  | templateNotFound : TagError
deriving DecidableEq

/-- Row loading: strip both fields, skip rows with an empty filename,
preserving CSV order. -/
def loadRows (raw : List (List Char × List Char)) : List (List Char × List Char) :=
  raw.filterMap (fun r =>
    if pyStrip r.1 = [] then none else some (pyStrip r.1, pyStrip r.2))

/-- The filenames reported by the validation gate (all rows whose tag is
empty, in order). -/
def missingOf (raw : List (List Char × List Char)) : List (List Char) :=
  ((loadRows raw).filter (fun r => r.2.isEmpty)).map (fun r => r.1)

/-- The whole Tag Applier run: load and validate the rows, then splice the
generated cards into the document.  `.ok` carries the text written back to
the HTML file; any `.error` aborts before the write, leaving the file
unchanged. -/
def runTagApplier (raw : List (List Char × List Char)) (html : List Char) :
    Except TagError (List Char) :=
  if loadRows raw = [] then .error .noRows
  else if missingOf raw = [] then
    match splice html (cardsHtml (loadRows raw)) with
    | none => .error .templateNotFound
    | some out => .ok out
  else .error (.missingTags (missingOf raw))

/-- The bounding pattern matches at position `p`: the opening literal occurs
there, and the closing group matches somewhere after it. -/
def MatchesAt (doc : List Char) (p : Nat) : Prop :=
  openTag.isPrefixOf (doc.drop p) = true ∧
    ∃ j, (closeMatchLen ((doc.drop (p + openTag.length)).drop j)).isSome = true

/-- Decidable test for `MatchesAt`. -/
def matchesAtB (doc : List Char) (p : Nat) : Bool :=
  openTag.isPrefixOf (doc.drop p) && (findClose (doc.drop (p + openTag.length))).isSome

theorem findClose_none_iff (s : List Char) :
    findClose s = none ↔ ∀ j, closeMatchLen (s.drop j) = none := by
  induction s with
  | nil =>
    constructor
    · intro _ j
      rw [List.drop_nil]
      rfl
    · intro _
      rfl
  | cons c cs ih =>
    cases h0 : closeMatchLen (c :: cs) with
    | some len =>
      constructor
      · intro h
        rw [findClose, h0] at h
        exact absurd h (by simp)
      · intro h
        have := h 0
        rw [List.drop_zero] at this
        rw [this] at h0
        exact absurd h0 (by simp)
    | none =>
      rw [findClose, h0]
      constructor
      · intro h j
        have hcs : findClose cs = none := by
          cases hfc : findClose cs with
          | none => rfl
          | some p => rw [hfc] at h; exact absurd h (by simp)
        cases j with
        | zero => rw [List.drop_zero]; exact h0
        | succ j' =>
          rw [List.drop_succ_cons]
          exact (ih.mp hcs) j'
      · intro h
        have hcs : findClose cs = none := by
          apply ih.mpr
          intro j
          have := h (j + 1)
          rwa [List.drop_succ_cons] at this
        rw [hcs]
        rfl

theorem findClose_some_spec (s : List Char) :
    ∀ j len, findClose s = some (j, len) →
      closeMatchLen (s.drop j) = some len ∧
        ∀ i, i < j → closeMatchLen (s.drop i) = none := by
  induction s with
  | nil => intro j len h; exact absurd h (by simp [findClose])
  | cons c cs ih =>
    intro j len h
    cases h0 : closeMatchLen (c :: cs) with
    | some l =>
      rw [findClose, h0] at h
      injection h with h1
      injection h1 with hj hl
      constructor
      · rw [← hj, List.drop_zero, h0, hl]
      · intro i hi
        omega
    | none =>
      rw [findClose, h0] at h
      cases hfc : findClose cs with
      | none => rw [hfc] at h; exact absurd h (by simp)
      | some p =>
        rw [hfc] at h
        injection h with h1
        obtain ⟨j', len'⟩ := p
        have hj : j = j' + 1 := by
          have := congrArg Prod.fst h1
          simpa using this.symm
        have hlen : len = len' := by
          have := congrArg Prod.snd h1
          simpa using this.symm
        obtain ⟨hc1, hc2⟩ := ih j' len' hfc
        constructor
        · rw [hj, List.drop_succ_cons, hlen]
          exact hc1
        · intro i hi
          cases i with
          | zero => rw [List.drop_zero]; exact h0
          | succ i' =>
            rw [List.drop_succ_cons]
            exact hc2 i' (by omega)

theorem matchesAt_shift (c : Char) (cs : List Char) (p : Nat) :
    MatchesAt (c :: cs) (p + 1) ↔ MatchesAt cs p := by
  unfold MatchesAt
  rw [List.drop_succ_cons]
  have : p + 1 + openTag.length = (p + openTag.length) + 1 := by omega
  rw [this, List.drop_succ_cons]

theorem findRegion_none_iff (doc : List Char) :
    findRegion doc = none ↔ ∀ p, ¬ MatchesAt doc p := by
  induction doc with
  | nil =>
    constructor
    · intro _ p hm
      obtain ⟨h1, _⟩ := hm
      rw [List.drop_nil] at h1
      exact absurd h1 (by decide)
    · intro _
      rfl
  | cons c cs ih =>
    cases hop : openTag.isPrefixOf (c :: cs) with
    | true =>
      cases hfc : findClose ((c :: cs).drop openTag.length) with
      | some p =>
        obtain ⟨j, len⟩ := p
        have hreg : findRegion (c :: cs) =
            some (0, openTag.length + j, openTag.length + j + len) := by
          rw [findRegion, hop, if_pos rfl, hfc]
        constructor
        · intro h
          rw [hreg] at h
          exact absurd h (by simp)
        · intro h
          exfalso
          apply h 0
          refine ⟨by rw [List.drop_zero]; exact hop, j, ?_⟩
          rw [Nat.zero_add]
          rw [(findClose_some_spec _ j len hfc).1]
          rfl
      | none =>
        have hreg : findRegion (c :: cs) =
            (findRegion cs).map (fun t => (t.1 + 1, t.2.1 + 1, t.2.2 + 1)) := by
          rw [findRegion, hop, if_pos rfl, hfc]
        rw [hreg]
        constructor
        · intro h p
          have hcs : findRegion cs = none := by
            cases hr : findRegion cs with
            | none => rfl
            | some t => rw [hr] at h; exact absurd h (by simp)
          cases p with
          | zero =>
            rintro ⟨h1, j, h2⟩
            rw [Nat.zero_add] at h2
            have hnone := (findClose_none_iff _).mp hfc j
            rw [hnone] at h2
            exact absurd h2 (by simp)
          | succ p' =>
            rw [matchesAt_shift]
            exact (ih.mp hcs) p'
        · intro h
          have hcs : findRegion cs = none := by
            apply ih.mpr
            intro p hm
            exact h (p + 1) ((matchesAt_shift c cs p).mpr hm)
          rw [hcs]
          rfl
    | false =>
      have hreg : findRegion (c :: cs) =
          (findRegion cs).map (fun t => (t.1 + 1, t.2.1 + 1, t.2.2 + 1)) := by
        rw [findRegion, hop]
        simp
      rw [hreg]
      constructor
      · intro h p
        have hcs : findRegion cs = none := by
          cases hr : findRegion cs with
          | none => rfl
          | some t => rw [hr] at h; exact absurd h (by simp)
        cases p with
        | zero =>
          rintro ⟨h1, _⟩
          rw [List.drop_zero] at h1
          rw [h1] at hop
          exact absurd hop (by simp)
        | succ p' =>
          rw [matchesAt_shift]
          exact (ih.mp hcs) p'
      · intro h
        have hcs : findRegion cs = none := by
          apply ih.mpr
          intro p hm
          exact h (p + 1) ((matchesAt_shift c cs p).mpr hm)
        rw [hcs]
        rfl

theorem matchesAtB_iff (doc : List Char) (p : Nat) :
    matchesAtB doc p = true ↔ MatchesAt doc p := by
  unfold matchesAtB MatchesAt
  rw [Bool.and_eq_true]
  constructor
  · rintro ⟨h1, h2⟩
    refine ⟨h1, ?_⟩
    cases hfc : findClose (doc.drop (p + openTag.length)) with
    | none => rw [hfc] at h2; exact absurd h2 (by simp)
    | some pr =>
      obtain ⟨j, len⟩ := pr
      exact ⟨j, by rw [(findClose_some_spec _ j len hfc).1]; rfl⟩
  · rintro ⟨h1, j, h2⟩
    refine ⟨h1, ?_⟩
    cases hfc : findClose (doc.drop (p + openTag.length)) with
    | some pr => rfl
    | none =>
      rw [(findClose_none_iff _).mp hfc j] at h2
      exact absurd h2 (by simp)

theorem findRegion_some_spec (doc : List Char) :
    ∀ s cst cen, findRegion doc = some (s, cst, cen) →
      MatchesAt doc s ∧ ∀ q, q < s → ¬ MatchesAt doc q := by
  induction doc with
  | nil => intro s cst cen h; exact absurd h (by simp [findRegion])
  | cons c cs ih =>
    intro s cst cen h
    cases hop : openTag.isPrefixOf (c :: cs) with
    | true =>
      cases hfc : findClose ((c :: cs).drop openTag.length) with
      | some pr =>
        obtain ⟨j, len⟩ := pr
        rw [findRegion, hop, if_pos rfl, hfc] at h
        injection h with h1
        have hs : s = 0 := by
          have := congrArg Prod.fst h1
          simpa using this.symm
        subst hs
        constructor
        · refine ⟨by rw [List.drop_zero]; exact hop, j, ?_⟩
          rw [Nat.zero_add, (findClose_some_spec _ j len hfc).1]
          rfl
        · intro q hq
          omega
      | none =>
        rw [findRegion, hop, if_pos rfl, hfc] at h
        cases hr : findRegion cs with
        | none => rw [hr] at h; exact absurd h (by simp)
        | some t =>
          obtain ⟨s', cst', cen'⟩ := t
          rw [hr] at h
          injection h with h1
          have hs : s = s' + 1 := by
            have := congrArg Prod.fst h1
            simpa using this.symm
          subst hs
          obtain ⟨hm, hmin⟩ := ih s' cst' cen' hr
          constructor
          · exact (matchesAt_shift c cs s').mpr hm
          · intro q hq
            cases q with
            | zero =>
              rintro ⟨h1', j, h2'⟩
              rw [Nat.zero_add] at h2'
              rw [(findClose_none_iff _).mp hfc j] at h2'
              exact absurd h2' (by simp)
            | succ q' =>
              rw [matchesAt_shift]
              exact hmin q' (by omega)
    | false =>
      have hreg : findRegion (c :: cs) =
          (findRegion cs).map (fun t => (t.1 + 1, t.2.1 + 1, t.2.2 + 1)) := by
        rw [findRegion, hop]
        simp
      rw [hreg] at h
      cases hr : findRegion cs with
      | none => rw [hr] at h; exact absurd h (by simp)
      | some t =>
        obtain ⟨s', cst', cen'⟩ := t
        rw [hr] at h
        injection h with h1
        have hs : s = s' + 1 := by
          have := congrArg Prod.fst h1
          simpa using this.symm
        subst hs
        obtain ⟨hm, hmin⟩ := ih s' cst' cen' hr
        constructor
        · exact (matchesAt_shift c cs s').mpr hm
        · intro q hq
          cases q with
          | zero =>
            rintro ⟨h1', _⟩
            rw [List.drop_zero] at h1'
            rw [h1'] at hop
            exact absurd hop (by simp)
          | succ q' =>
            rw [matchesAt_shift]
            exact hmin q' (by omega)

theorem splice_eq_none_iff_region (doc cards : List Char) :
    splice doc cards = none ↔ findRegion doc = none := by
  unfold splice
  cases h : findRegion doc with
  | none => simp
  | some t =>
    obtain ⟨s, cst, cen⟩ := t
    simp

/-- C2 (amended): the Tag Applier fails exactly when the bounding pattern has
no match at all; whenever the pattern matches somewhere — once or several
times — `pattern.search` selects the leftmost match (the returned region
starts at a matching position and no earlier position matches) and the splice
succeeds. -/
theorem C2_splice_fails_iff_no_match :
    ∀ doc cards : List Char,
      (splice doc cards = none ↔ ∀ p, ¬ MatchesAt doc p) ∧
      (∀ s cst cen, findRegion doc = some (s, cst, cen) →
        MatchesAt doc s ∧ ∀ q, q < s → ¬ MatchesAt doc q) := by
  intro doc cards
  constructor
  · rw [splice_eq_none_iff_region, findRegion_none_iff]
  · exact findRegion_some_spec doc

/-- Witness for C2: on a document with no anchor the splice reports failure. -/
theorem C2_splice_fails_iff_no_match_witness :
    splice "<main>no anchor</main>".toList "y".toList = none :=
  ((C2_splice_fails_iff_no_match "<main>no anchor</main>".toList "y".toList).1).mpr
    ((findRegion_none_iff "<main>no anchor</main>".toList).mp (by decide))

set_option maxRecDepth 40000

/-- One complete anchor region (opening marker, interior, closing
sequence). -/
def demoRegion : List Char := openTag ++ "\nX\n</div>\n</main>".toList

/-- A document in which the bounding pattern matches twice, at position `0`
and at position `demoRegion.length`. -/
def twoRegionDoc : List Char := demoRegion ++ demoRegion

/-- C2 counterexample: the claim says a document whose anchor pattern is not
found exactly once makes the Tag Applier fail.  Here the pattern matches at
two distinct positions and yet the splice succeeds: the script silently
splices the first occurrence. -/
theorem C2_counterexample_two_matches :
    matchesAtB twoRegionDoc 0 = true ∧
    matchesAtB twoRegionDoc demoRegion.length = true ∧
    demoRegion.length ≠ 0 ∧
    splice twoRegionDoc "y".toList ≠ none := by
  refine ⟨by decide, by decide, by decide, by decide⟩

theorem mem_missingOf {raw : List (List Char × List Char)} {r : List Char × List Char}
    (h1 : r ∈ loadRows raw) (h2 : r.2 = []) : r.1 ∈ missingOf raw := by
  unfold missingOf
  exact List.mem_map.mpr ⟨r, List.mem_filter.mpr ⟨h1, by rw [h2]; rfl⟩, rfl⟩

/-- C3: whenever a retained row (non-empty filename) has an empty tag after
trimming, the Tag Applier aborts with the validation error before any write
(the result is an `.error`, so the HTML file is untouched), and the reported
list contains every offending filename, not just the first. -/
theorem C3_empty_tag_aborts :
    ∀ raw html, (∃ r ∈ loadRows raw, r.2 = []) →
      runTagApplier raw html = .error (.missingTags (missingOf raw)) ∧
        ∀ r ∈ loadRows raw, r.2 = [] → r.1 ∈ missingOf raw := by
  rintro raw html ⟨r0, hr0, hr02⟩
  have hmem : r0.1 ∈ missingOf raw := mem_missingOf hr0 hr02
  have hrows : ¬ loadRows raw = [] := by
    intro h
    rw [h] at hr0
    exact absurd hr0 (List.not_mem_nil r0)
  have hmiss : ¬ missingOf raw = [] := by
    intro h
    rw [h] at hmem
    exact absurd hmem (List.not_mem_nil r0.1)
  constructor
  · unfold runTagApplier
    rw [if_neg hrows, if_neg hmiss]
  · intro r h1 h2
    exact mem_missingOf h1 h2

/-- Witness for C3: a CSV with one empty and one filled tag aborts with the
offending filename reported; the second row with an empty tag would be listed
too. -/
theorem C3_empty_tag_aborts_witness :
    runTagApplier [("a.jpg".toList, "".toList), ("b.jpg".toList, "x".toList)]
        "<main></main>".toList
      = .error (.missingTags ["a.jpg".toList]) :=
  ((C3_empty_tag_aborts [("a.jpg".toList, "".toList), ("b.jpg".toList, "x".toList)]
      "<main></main>".toList ⟨("a.jpg".toList, []), by decide, rfl⟩).1).trans rfl

/-! ### Idempotence of the Tag Applier (C1) -/

/-- A gallery document containing the anchor region with some previous
interior content. -/
def demoHtml : List Char :=
  openTag ++ "\nOLD\n        </div>\n    </main>\n</body>".toList

/-- A valid CSV (non-empty filename, complete tag). -/
def demoRaw : List (List Char × List Char) := [("a_b.jpg".toList, "nature".toList)]

/-- The document written by the first run. -/
def firstRun : List Char := ((runTagApplier demoRaw demoHtml).toOption).getD []

/-- The document written by the second run, on the first run's output. -/
def secondRun : List Char := ((runTagApplier demoRaw firstRun).toOption).getD []

/-- C1 counterexample: with a valid single-row CSV and a document containing
the anchor region, running the Tag Applier twice does NOT reproduce the first
output byte-for-byte: the second run's output differs. -/
theorem C1_counterexample_not_idempotent :
    runTagApplier demoRaw demoHtml = .ok firstRun ∧
    runTagApplier demoRaw firstRun = .ok secondRun ∧
    secondRun ≠ firstRun :=
  ⟨rfl, rfl, by decide⟩

/-- Offset of the captured closing sequence in the first run's output: right
after the opening marker, the inserted newline and the generated cards
block. -/
def insertPos : Nat := openTag.length + 1 + (cardsHtml (loadRows demoRaw)).length

/-- C1 (amended): the second run succeeds and regenerates the card block
identically, but is not byte-identical: because `cards_html` ends with a
newline and the closing group `\n\s*</div>\n\s*</main>` begins with one, the
second run's lazy match absorbs that trailing newline into the captured
closing group, so exactly one extra newline is inserted immediately before
the closing sequence and the document grows by one byte per run. -/
theorem C1_second_run_inserts_newline :
    secondRun = firstRun.take insertPos ++ '\n' :: firstRun.drop insertPos ∧
    secondRun.length = firstRun.length + 1 := by
  refine ⟨by decide, by decide⟩

/-! ### The Caption Renamer (`rename_photos_by_caption.py`)

The photo folder is modelled by the list of file names it contains; the
remote captioning service (`caption_image`, the only call inside the loop's
`try`) is an oracle from the file name to either a caption or an error. -/

/-- What one loop iteration prints.  `probeOut` models exhaustion of the
probe fuel given to `unique_path`'s `while True` loop; the totality theorem
for `unique_path` shows it can never occur. -/
inductive Event where
  | err (name : List Char) : Event
  | skip (name : List Char) : Event
  | dry (name nw : List Char) : Event
  | ren (name nw : List Char) : Event
  | probeOut (name : List Char) : Event
deriving DecidableEq

/-- One iteration of the `for name, path, ext in iter_images(folder)` loop:
ask the service, catch its error (`except Exception: print; continue`),
sanitize, compute the unique destination, then skip / report / rename. -/
def step (dryRun : Bool) (svc : List Char → Except Unit (List Char))
    (fs : List (List Char)) (name ext : List Char) : List (List Char) × Event :=
  match svc name with
  | .error _ => (fs, .err name)
  | .ok caption =>
    match unique_path fs (sanitize_caption caption) ext with
    | none => (fs, .probeOut name)
    | some newName =>
      if newName = name then (fs, .skip name)
      else if dryRun then (fs, .dry name newName)
      else (newName :: fs.erase name, .ren name newName)

/-- The whole loop, threading the folder contents through the renames and
collecting one event per file. -/
def runBatch (dryRun : Bool) (svc : List Char → Except Unit (List Char))
    (fs : List (List Char)) : List (List Char × List Char) → List (List Char) × List Event
  | [] => (fs, [])
  | f :: rest =>
    ((runBatch dryRun svc (step dryRun svc fs f.1 f.2).1 rest).1,
      (step dryRun svc fs f.1 f.2).2 ::
        (runBatch dryRun svc (step dryRun svc fs f.1 f.2).1 rest).2)

theorem runBatch_length (dryRun : Bool) (svc : List Char → Except Unit (List Char)) :
    ∀ files fs, (runBatch dryRun svc fs files).2.length = files.length := by
  intro files
  induction files with
  | nil => intro fs; rfl
  | cons f rest ih =>
    intro fs
    show ((step dryRun svc fs f.1 f.2).2 ::
        (runBatch dryRun svc (step dryRun svc fs f.1 f.2).1 rest).2).length = _
    rw [List.length_cons, ih]
    rfl

/-- C4: if the captioning call fails on file `f`, the error is caught and
reported with `f`'s filename, the folder is left unchanged by that
iteration, and every file after `f` is still processed exactly as it would
have been — one event per file, so a single failing file never aborts the
batch. -/
theorem C4_failing_file_never_aborts_batch :
    ∀ (dryRun : Bool) (svc : List Char → Except Unit (List Char))
      (fs : List (List Char)) (pre : List (List Char × List Char))
      (f : List Char × List Char) (post : List (List Char × List Char)),
      svc f.1 = .error () →
      (runBatch dryRun svc fs (pre ++ f :: post)).2 =
          (runBatch dryRun svc fs pre).2 ++
            Event.err f.1 ::
              (runBatch dryRun svc (runBatch dryRun svc fs pre).1 post).2 ∧
        (runBatch dryRun svc fs (pre ++ f :: post)).2.length =
          pre.length + 1 + post.length := by
  intro dryRun svc fs pre f post hsvc
  constructor
  · induction pre generalizing fs with
    | nil =>
      show (runBatch dryRun svc fs (f :: post)).2 = _
      have hstep : step dryRun svc fs f.1 f.2 = (fs, .err f.1) := by
        unfold step
        rw [hsvc]
      show ((step dryRun svc fs f.1 f.2).2 ::
          (runBatch dryRun svc (step dryRun svc fs f.1 f.2).1 post).2) = _
      rw [hstep]
      rfl
    | cons g pre' ih =>
      show ((step dryRun svc fs g.1 g.2).2 ::
          (runBatch dryRun svc (step dryRun svc fs g.1 g.2).1 (pre' ++ f :: post)).2) = _
      rw [ih (step dryRun svc fs g.1 g.2).1]
      rfl
  · rw [runBatch_length]
    rw [List.length_append, List.length_cons]
    omega

/-- Demonstration data for the C4 witness: the middle file's caption call
fails. -/
def svcDemo : List Char → Except Unit (List Char) :=
  fun n => if n = "b.jpg".toList then .error () else .ok "cap".toList

theorem C4_failing_file_never_aborts_batch_witness :
    (runBatch false svcDemo ["a.jpg".toList, "b.jpg".toList, "c.jpg".toList]
        ([("a.jpg".toList, ".jpg".toList)] ++
          ("b.jpg".toList, ".jpg".toList) :: [("c.jpg".toList, ".jpg".toList)])).2.length
      = 1 + 1 + 1 :=
  (C4_failing_file_never_aborts_batch false svcDemo
    ["a.jpg".toList, "b.jpg".toList, "c.jpg".toList]
    [("a.jpg".toList, ".jpg".toList)] ("b.jpg".toList, ".jpg".toList)
    [("c.jpg".toList, ".jpg".toList)] rfl).2

theorem step_dry_run_fst (svc : List Char → Except Unit (List Char))
    (fs : List (List Char)) (name ext : List Char) :
    (step true svc fs name ext).1 = fs := by
  unfold step
  split
  · rfl
  · split
    · rfl
    · split
      · rfl
      · split
        · rfl
        · exact absurd rfl (by assumption)

/-- C8: in dry-run mode the Caption Renamer performs no filesystem mutation
whatsoever: after processing any sequence of files with any service
behaviour, the folder contents are exactly what they were, so every file
keeps its original path (renames are only reported as events). -/
theorem C8_dry_run_never_mutates :
    ∀ (svc : List Char → Except Unit (List Char)) (fs : List (List Char))
      (files : List (List Char × List Char)),
      (runBatch true svc fs files).1 = fs := by
  intro svc fs files
  induction files generalizing fs with
  | nil => rfl
  | cons f rest ih =>
    show (runBatch true svc (step true svc fs f.1 f.2).1 rest).1 = fs
    rw [step_dry_run_fst, ih]

/-! ### Directory enumeration (`iter_images`)

Python source:
```
def iter_images(folder: str):
    for name in sorted(os.listdir(folder)):
        if name.startswith("."):
            continue
        path = os.path.join(folder, name)
        if not os.path.isfile(path):
            continue
        ext = os.path.splitext(name)[1].lower()
        if ext in IMAGE_EXTS:
            yield name, path, ext
```
-/

/-- The fixed allow-list of raster image extensions (`IMAGE_EXTS`). -/
def IMAGE_EXTS : List (List Char) :=
  [".jpg".toList, ".jpeg".toList, ".png".toList, ".webp".toList,
   ".bmp".toList, ".tiff".toList, ".gif".toList]

/-- A directory entry as `os.listdir` + `os.path.isfile` see it. -/
structure DirEntry where
  name : List Char
  isFile : Bool
deriving DecidableEq

/-- `name.startswith(".")`. -/
def isHidden (name : List Char) : Bool :=
  match name with
  | '.' :: _ => true
  | _ => false

/-- The extension part kept by `os.path.splitext(name)[1]` for a plain file
name: everything from the last dot on, except that the leading dots of the
name are never a split point (so names of only-leading-dots have no
extension). -/
def pyExt (name : List Char) : List Char :=
  if '.' ∈ name.dropWhile (fun c => c == '.') then
    '.' :: (name.reverse.takeWhile (fun c => !(c == '.'))).reverse
  else []

/-- Lexicographic comparison on code points, the order `sorted` uses for
Python strings. -/
def lexLe : List Char → List Char → Bool
  | [], _ => true
  | _ :: _, [] => false
  | a :: as, b :: bs => if a = b then lexLe as bs else decide (a < b)

theorem lexLe_total : ∀ a b : List Char, lexLe a b = true ∨ lexLe b a = true := by
  intro a
  induction a with
  | nil => intro b; exact Or.inl rfl
  | cons x xs ih =>
    intro b
    cases b with
    | nil => exact Or.inr rfl
    | cons y ys =>
      by_cases hxy : x = y
      · subst hxy
        rcases ih ys with h | h
        · exact Or.inl (by unfold lexLe; rw [if_pos rfl]; exact h)
        · exact Or.inr (by unfold lexLe; rw [if_pos rfl]; exact h)
      · rcases lt_trichotomy x y with h | h | h
        · exact Or.inl (by unfold lexLe; rw [if_neg hxy]; exact decide_eq_true h)
        · exact absurd h hxy
        · exact Or.inr (by unfold lexLe; rw [if_neg (Ne.symm hxy)]; exact decide_eq_true h)

theorem lexLe_trans :
    ∀ a b c : List Char, lexLe a b = true → lexLe b c = true → lexLe a c = true := by
  intro a
  induction a with
  | nil => intro b c _ _; rfl
  | cons x xs ih =>
    intro b c hab hbc
    cases b with
    | nil => exact absurd hab (by simp [lexLe])
    | cons y ys =>
      cases c with
      | nil => exact absurd hbc (by simp [lexLe])
      | cons z zs =>
        unfold lexLe at hab hbc ⊢
        by_cases hxy : x = y
        · subst hxy
          rw [if_pos rfl] at hab
          by_cases hxz : x = z
          · subst hxz
            rw [if_pos rfl] at hbc
            rw [if_pos rfl]
            exact ih ys zs hab hbc
          · rw [if_neg hxz] at hbc
            rw [if_neg hxz]
            exact hbc
        · rw [if_neg hxy] at hab
          have hlt1 : x < y := of_decide_eq_true hab
          by_cases hyz : y = z
          · subst hyz
            rw [if_neg hxy]
            exact decide_eq_true hlt1
          · rw [if_neg hyz] at hbc
            have hlt2 : y < z := of_decide_eq_true hbc
            have hlt : x < z := lt_trans hlt1 hlt2
            rw [if_neg (ne_of_lt hlt)]
            exact decide_eq_true hlt

/-- The sort order on directory entries (by name). -/
def entryLe (a b : DirEntry) : Prop := lexLe a.name b.name = true

instance : DecidableRel entryLe := fun a b =>
  inferInstanceAs (Decidable (lexLe a.name b.name = true))

instance : IsTotal DirEntry entryLe :=
  ⟨fun a b => lexLe_total a.name b.name⟩

instance : IsTrans DirEntry entryLe :=
  ⟨fun a b c => lexLe_trans a.name b.name c.name⟩

/-- `sorted(os.listdir(folder))`. -/
def sortEntries (l : List DirEntry) : List DirEntry := List.insertionSort entryLe l

/-- The body of the generator: hidden check, regular-file check, extension
check, then the yielded pair (name, lower-cased extension). -/
def imageProbe (e : DirEntry) : Option (List Char × List Char) :=
  if isHidden e.name then none
  else if !e.isFile then none
  else if (pyExt e.name).map toLowerA ∈ IMAGE_EXTS then
    some (e.name, (pyExt e.name).map toLowerA)
  else none

/-- `iter_images`: sorted enumeration filtered to qualifying entries. -/
def iter_images (entries : List DirEntry) : List (List Char × List Char) :=
  (sortEntries entries).filterMap imageProbe

/-- The generator's condition, as a single test. -/
def keepEntry (e : DirEntry) : Bool :=
  !(isHidden e.name) && (e.isFile && decide ((pyExt e.name).map toLowerA ∈ IMAGE_EXTS))

/-- The yielded pair for a kept entry. -/
def entryPair (e : DirEntry) : List Char × List Char :=
  (e.name, (pyExt e.name).map toLowerA)

theorem filterMap_imageProbe (l : List DirEntry) :
    l.filterMap imageProbe = (l.filter keepEntry).map entryPair := by
  induction l with
  | nil => rfl
  | cons e es ih =>
    rw [List.filterMap_cons, List.filter_cons]
    cases h1 : isHidden e.name with
    | true =>
      have hp : imageProbe e = none := by rw [imageProbe, if_pos h1]
      have hk : keepEntry e = false := by rw [keepEntry, h1]; rfl
      rw [hp, hk, ih]
      rfl
    | false =>
      cases h2 : e.isFile with
      | false =>
        have hp : imageProbe e = none := by
          rw [imageProbe, if_neg (by rw [h1]; exact Bool.false_ne_true), h2]
          rfl
        have hk : keepEntry e = false := by rw [keepEntry, h1, h2]; rfl
        rw [hp, hk, ih]
        rfl
      | true =>
        by_cases h3 : (pyExt e.name).map toLowerA ∈ IMAGE_EXTS
        · have hp : imageProbe e = some (entryPair e) := by
            rw [imageProbe, if_neg (by rw [h1]; exact Bool.false_ne_true), h2]
            show (if !true then none else _) = _
            rw [if_neg (by simp), if_pos h3]
            rfl
          have hk : keepEntry e = true := by
            rw [keepEntry, h1, h2]
            simp [h3]
          rw [hp, hk, ih]
          rfl
        · have hp : imageProbe e = none := by
            rw [imageProbe, if_neg (by rw [h1]; exact Bool.false_ne_true), h2]
            show (if !true then none else _) = _
            rw [if_neg (by simp), if_neg h3]
          have hk : keepEntry e = false := by
            rw [keepEntry, h1, h2]
            simp [h3]
          rw [hp, hk, ih]
          rfl

/-- C9: the Caption Renamer enumerates the directory in sorted order
(consecutive results are lexicographically ordered by name) and yields
exactly the entries that are regular files, not hidden, and whose
lower-cased extension is in the fixed allow-list, paired with that
extension. -/
theorem C9_iter_images_sorted_and_filtered :
    ∀ entries : List DirEntry,
      List.Pairwise (fun a b : List Char × List Char => lexLe a.1 b.1 = true)
          (iter_images entries) ∧
        ∀ p : List Char × List Char,
          p ∈ iter_images entries ↔
            (∃ e ∈ entries, e.name = p.1 ∧ e.isFile = true) ∧
              isHidden p.1 = false ∧
              p.2 = (pyExt p.1).map toLowerA ∧ p.2 ∈ IMAGE_EXTS := by
  intro entries
  constructor
  · unfold iter_images
    rw [filterMap_imageProbe]
    rw [List.pairwise_map]
    have hs : List.Pairwise entryLe (sortEntries entries) :=
      List.sorted_insertionSort entryLe entries
    exact List.Pairwise.filter keepEntry hs
  · intro p
    constructor
    · intro hp
      rcases List.mem_filterMap.mp hp with ⟨e, he, hpe⟩
      have hmem : e ∈ entries := (List.perm_insertionSort entryLe entries).subset he
      unfold imageProbe at hpe
      by_cases h1 : isHidden e.name = true
      · rw [if_pos h1] at hpe
        exact absurd hpe (by simp)
      · rw [if_neg h1] at hpe
        cases h2 : e.isFile with
        | false =>
          rw [h2] at hpe
          exact absurd hpe (by simp)
        | true =>
          rw [h2] at hpe
          rw [show (!true) = false from rfl] at hpe
          rw [if_neg (by exact Bool.false_ne_true)] at hpe
          by_cases h3 : (pyExt e.name).map toLowerA ∈ IMAGE_EXTS
          · rw [if_pos h3] at hpe
            injection hpe with hpe'
            rw [← hpe']
            refine ⟨⟨e, hmem, rfl, h2⟩, ?_, rfl, h3⟩
            simp only [Bool.not_eq_true] at h1
            exact h1
          · rw [if_neg h3] at hpe
            exact absurd hpe (by simp)
    · rintro ⟨⟨e, he, hname, hfile⟩, hhid, hext, hmem⟩
      apply List.mem_filterMap.mpr
      refine ⟨e, (List.perm_insertionSort entryLe entries).mem_iff.mpr he, ?_⟩
      unfold imageProbe
      rw [hname]
      rw [if_neg (by rw [hhid]; exact Bool.false_ne_true), hfile]
      rw [show (!true) = false from rfl]
      rw [if_neg (by exact Bool.false_ne_true)]
      rw [← hext]
      rw [if_pos hmem]

/-- Witness for C9: a mixed directory keeps exactly the qualifying file. -/
theorem C9_iter_images_sorted_and_filtered_witness :
    ("b.JPG".toList, ".jpg".toList) ∈
      iter_images [⟨"sub.png".toList, false⟩, ⟨".hidden.jpg".toList, true⟩,
        ⟨"b.JPG".toList, true⟩, ⟨"notes.txt".toList, true⟩] :=
  ((C9_iter_images_sorted_and_filtered
      [⟨"sub.png".toList, false⟩, ⟨".hidden.jpg".toList, true⟩,
        ⟨"b.JPG".toList, true⟩, ⟨"notes.txt".toList, true⟩]).2
    ("b.JPG".toList, ".jpg".toList)).mpr
    ⟨⟨⟨"b.JPG".toList, true⟩, by decide, rfl, rfl⟩, by decide, by decide, by decide⟩

theorem step_ok_some (dryRun : Bool) (svc : List Char → Except Unit (List Char))
    (fs : List (List Char)) (name ext caption nn : List Char)
    (hsvc : svc name = .ok caption)
    (hup : unique_path fs (sanitize_caption caption) ext = some nn) :
    step dryRun svc fs name ext =
      if nn = name then (fs, Event.skip name)
      else if dryRun then (fs, Event.dry name nn)
      else (nn :: fs.erase name, Event.ren name nn) := by
  unfold step
  rw [hsvc]
  show (match unique_path fs (sanitize_caption caption) ext with
    | none => (fs, Event.probeOut name)
    | some newName =>
      if newName = name then (fs, Event.skip name)
      else if dryRun then (fs, Event.dry name newName)
      else (newName :: fs.erase name, Event.ren name newName)) = _
  rw [hup]

/-- C10: unique-path computation never returns a name that already exists in
the folder, hence never the (existing) source name itself; consequently a
file whose current name already equals its sanitized caption plus extension
is not skipped as unchanged — the equals-source skip branch is unreachable —
but renamed (or dry-run reported) to the `base_02` variant when that probe
collides with nothing. -/
theorem C10_unique_path_no_collision_no_skip :
    (∀ (ex : List (List Char)) (base ext r : List Char),
      unique_path ex base ext = some r → r ∉ ex) ∧
    (∀ (dryRun : Bool) (svc : List Char → Except Unit (List Char))
        (fs : List (List Char)) (name ext caption : List Char),
      svc name = .ok caption → name ∈ fs →
        (step dryRun svc fs name ext).2 ≠ Event.skip name ∧
        (sanitize_caption caption ++ ext = name →
          candName (sanitize_caption caption) ext 2 ∉ fs →
          (step dryRun svc fs name ext).2 =
            (if dryRun then Event.dry name (candName (sanitize_caption caption) ext 2)
             else Event.ren name (candName (sanitize_caption caption) ext 2)))) := by
  constructor
  · intro ex base ext r h
    exact unique_path_not_mem h
  · intro dryRun svc fs name ext caption hsvc hmem
    obtain ⟨nn, hnn⟩ :=
      Option.isSome_iff_exists.mp (unique_path_isSome fs (sanitize_caption caption) ext)
    have hne : nn ≠ name := by
      intro he
      exact (unique_path_not_mem hnn) (he ▸ hmem)
    have hstep := step_ok_some dryRun svc fs name ext caption nn hsvc hnn
    rw [if_neg hne] at hstep
    constructor
    · cases dryRun with
      | true =>
        rw [if_pos rfl] at hstep
        rw [hstep]
        intro hco
        exact absurd hco (by simp)
      | false =>
        rw [if_neg (by exact Bool.false_ne_true)] at hstep
        rw [hstep]
        intro hco
        exact absurd hco (by simp)
    · intro hname hcand
      have hcand2 : nn = candName (sanitize_caption caption) ext 2 := by
        unfold unique_path at hnn
        rw [if_pos (by rw [hname]; exact hmem)] at hnn
        show nn = _
        have : uniqueGo fs (sanitize_caption caption) ext (fs.length + 1) 2 =
            some (candName (sanitize_caption caption) ext 2) := by
          show (if candName (sanitize_caption caption) ext 2 ∈ fs then
              uniqueGo fs (sanitize_caption caption) ext fs.length 3
            else some (candName (sanitize_caption caption) ext 2)) = _
          rw [if_neg hcand]
        rw [this] at hnn
        injection hnn with h'
        exact h'.symm
      subst hcand2
      cases dryRun with
      | true =>
        rw [if_pos rfl] at hstep
        rw [hstep]
        rfl
      | false =>
        rw [if_neg (by exact Bool.false_ne_true)] at hstep
        rw [hstep]
        rfl

/-- Caption service for the C10 witness: captions everything as `image`. -/
def svcTen : List Char → Except Unit (List Char) := fun _ => .ok "image".toList

/-- Witness for C10: the file `image.jpg` whose sanitized caption is `image`
is renamed to `image_02.jpg`, not skipped. -/
theorem C10_unique_path_no_collision_no_skip_witness :
    (step false svcTen ["image.jpg".toList] "image.jpg".toList ".jpg".toList).2 =
      Event.ren "image.jpg".toList "image_02.jpg".toList := by
  have h := ((C10_unique_path_no_collision_no_skip.2 false svcTen ["image.jpg".toList]
      "image.jpg".toList ".jpg".toList "image".toList rfl (by decide)).2
      (by decide) (by decide))
  exact h.trans (by decide)
